import Mathlib

/-!
Verification of the record-compression core and map-reduce orchestration of the
planequery-aircraft repository, as a shallow embedding of the Python sources
(`src/adsb/compress_adsb_to_aircraft_data.py`, `worker.py`, `reducer.py`,
`process_icao_chunk.py`, `historical_process_chunk.py`,
`historical_combine_chunks.py`).

Observations are modelled as records with a `Nat` timestamp, a `String`
aircraft identifier, and the seven content attributes of `COLUMNS`
(`dbFlags, ownOp, year, desc, aircraft_category, r, t`), all strings; the
pipeline normalises nulls to empty strings before the code modelled here runs
(`fillna('')`), so every attribute is a plain string.
-/

namespace PlaneQuery

/-- One observation row: `time`, `icao`, and the seven content columns of
`COLUMNS` in `compress_adsb_to_aircraft_data.py` (all strings, empty string
meaning unknown). -/
structure Row where
  time : Nat
  icao : String
  dbFlags : String
  ownOp : String
  year : String
  desc : String
  aircraft_category : String
  r : String
  t : String
deriving DecidableEq, Repr

/-- A tag for each of the seven content columns (`COLUMNS` in the source). -/
inductive Col where
  | dbFlags
  | ownOp
  | year
  | desc
  | aircraft_category
  | r
  | t
deriving DecidableEq, Repr

/-- The content column of a row named by a `Col` tag. -/
def Row.get (row : Row) : Col → String
  | .dbFlags => row.dbFlags
  | .ownOp => row.ownOp
  | .year => row.year
  | .desc => row.desc
  | .aircraft_category => row.aircraft_category
  | .r => row.r
  | .t => row.t

/-- `COLUMNS = ['dbFlags', 'ownOp', 'year', 'desc', 'aircraft_category', 'r', 't']`. -/
def COLUMNS : List Col :=
  [.dbFlags, .ownOp, .year, .desc, .aircraft_category, .r, .t]

/-- The signature of a row: the content-column values joined by `'|'`
(`df[COLUMNS].astype(str).agg('|'.join, axis=1)`; `astype(str)` is the
identity on the string-valued columns modelled here). -/
def signature (row : Row) : String :=
  String.intercalate "|" (COLUMNS.map (fun c => Row.get row c))

/-- Raw per-signature occurrence count over the input rows before grouping
(`signature_counts = df["_signature"].value_counts()`). -/
def rawSigCount (df : List Row) (s : String) : Nat :=
  (df.filter (fun row => signature row == s)).length

/-- Distinct elements of a list in first-occurrence order, with an accumulator
of already-seen elements. -/
def uniqueAux {α : Type} [DecidableEq α] : List α → List α → List α
  | _, [] => []
  | seen, a :: rest =>
    if a ∈ seen then uniqueAux seen rest else a :: uniqueAux (a :: seen) rest

/-- Distinct elements of a list in first-occurrence order. -/
def uniqueList {α : Type} [DecidableEq α] (l : List α) : List α :=
  uniqueAux [] l

/-- Insert an element into a list sorted by the boolean relation `leb`. -/
def insertLeb {α : Type} (leb : α → α → Bool) (a : α) : List α → List α
  | [] => [a]
  | b :: rest => if leb a b then a :: b :: rest else b :: insertLeb leb a rest

/-- Stable insertion sort by the boolean relation `leb`; models the stable
lexicographic sorts pandas performs (`sort_values`, and the key sorting of
`groupby(..., sort=True)`). -/
def sortLeb {α : Type} (leb : α → α → Bool) : List α → List α
  | [] => []
  | a :: rest => insertLeb leb a (sortLeb leb rest)

/-- Code-point comparison of character lists, the order Python uses on
strings: `as ≤ bs` lexicographically by `Char.toNat`. -/
def charListLeb : List Char → List Char → Bool
  | [], _ => true
  | _ :: _, [] => false
  | a :: as, b :: bs =>
    if a.toNat < b.toNat then true
    else if b.toNat < a.toNat then false
    else charListLeb as bs

/-- Lexicographic (code-point) comparison of strings. -/
def strLeb (a b : String) : Bool :=
  charListLeb a.data b.data

/-- Step 1 of `compress_df`: group rows by signature and keep the first row of
each group, group keys sorted ascending
(`df.groupby("_signature", as_index=False).first()`; with no nulls in any
column, pandas `first()` per group equals the group's first row, and the
default `sort=True` orders the resulting rows by signature). -/
def groupFirst (df : List Row) : List Row :=
  (sortLeb strLeb (uniqueList (df.map signature))).filterMap
    (fun s => df.find? (fun row => signature row == s))

/-- Content columns with non-empty value
(the keys of `get_non_empty_dict(row)`). -/
def nonEmptyCols (row : Row) : List Col :=
  COLUMNS.filter (fun c => !(Row.get row c == ""))

/-- Number of non-empty content columns (`_non_empty_count`). -/
def nonEmptyCount (row : Row) : Nat :=
  (nonEmptyCols row).length

/-- Lookup in a row's non-empty dict: `none` when the column is empty
(`row_dict.get(k)` / `other_dict.get(k)` with empty values absent). -/
def dictGet (row : Row) (c : Col) : Option String :=
  if Row.get row c = "" then none else some (Row.get row c)

/-- The check `all(row_dict.get(k) == other_dict.get(k) for k in
row_dict.keys())`: every non-empty column of `row` has the identical value in
`other`. -/
def subsetMatch (row other : Row) : Bool :=
  (nonEmptyCols row).all (fun c => dictGet other c == some (Row.get row c))

/-- The inner loop of `is_subset_of_any(idx)`: scanning all indexed rows,
skipping the row's own index, and testing subset match plus a strictly larger
non-empty count. -/
def isSubsetOfAny (indexed : List (Nat × Row)) (i : Nat) (row : Row) : Bool :=
  indexed.any (fun p =>
    (!(p.1 == i)) && subsetMatch row p.2 &&
      decide (nonEmptyCount row < nonEmptyCount p.2))

/-- The subsumption filter of `compress_df`: keep the rows whose index is not
a subset of any other indexed row
(`keep_mask = ~df.index.to_series().apply(is_subset_of_any)`). -/
def subsumptionFilter (grouped : List Row) : List Row :=
  let indexed := grouped.enum
  (indexed.filter (fun p => !(isSubsetOfAny indexed p.1 p.2))).map Prod.snd

/-- The maximum of `cnt` over the signatures of a list of rows. -/
def maxRawCount (cnt : String → Nat) (l : List Row) : Nat :=
  l.foldr (fun row acc => max (cnt (signature row)) acc) 0

/-- The signature of the first row attaining the maximal count, scanning in
list order (`sig_counts.idxmax()`, which returns the first label attaining
the maximum in the order of `remaining_sigs`). -/
def firstMaxSig (cnt : String → Nat) : List Row → String
  | [] => ""
  | row :: rest =>
    if maxRawCount cnt rest ≤ cnt (signature row) then signature row
    else firstMaxSig cnt rest

/-- The compression engine `compress_df(df)` for one aircraft group: compute
signatures and their raw counts, keep the first row per signature, drop
subsumed rows, and if more than one row survives keep exactly the rows whose
signature is the first maximal-count survivor signature; finally tag every
output row with the group's `icao` (`df['icao'] = icao`). -/
def compress_df (icao : String) (df : List Row) : List Row :=
  let cnt := rawSigCount df
  let grouped := groupFirst df
  let survivors := subsumptionFilter grouped
  let selected :=
    if 1 < survivors.length then
      survivors.filter (fun row => signature row == firstMaxSig cnt survivors)
    else survivors
  selected.map (fun row => { row with icao := icao })

/-- The key pandas `sort_values(['icao', 'time'])` sorts by: `icao` by string
code-point order, then `time` ascending; the multi-column sort is stable. -/
def rowKeyLeb (x y : Row) : Bool :=
  if x.icao == y.icao then decide (x.time ≤ y.time) else strLeb x.icao y.icao

/-- `df.sort_values(['icao', 'time'])` as a stable sort. -/
def sortByIcaoTime (df : List Row) : List Row :=
  sortLeb rowKeyLeb df

/-- Comparison by `time` only (`df.sort_values('time')`). -/
def timeLeb (x y : Row) : Bool :=
  decide (x.time ≤ y.time)

/-- `df.sort_values('time')` as a stable sort. -/
def sortByTime (df : List Row) : List Row :=
  sortLeb timeLeb df

/-- The key `drop_duplicates(subset=['icao'] + COLUMNS, keep='first')`
compares: the identifier together with all content-column values. -/
def contentKey (row : Row) : String × List String :=
  (row.icao, COLUMNS.map (Row.get row))

/-- Keep-first duplicate removal over `contentKey`, carrying the set of
already-seen keys. -/
def dropDupAux (seen : List (String × List String)) : List Row → List Row
  | [] => []
  | row :: rest =>
    if contentKey row ∈ seen then dropDupAux seen rest
    else row :: dropDupAux (contentKey row :: seen) rest

/-- `df.drop_duplicates(subset=['icao'] + COLUMNS, keep='first')`. -/
def dropDuplicatesIcaoContent (df : List Row) : List Row :=
  dropDupAux [] df

/-- `df.groupby('icao', group_keys=False).apply(compress_df)`: apply the
engine to each aircraft's rows and concatenate the results. The input is
pre-sorted by `icao` at both call sites, so the first-occurrence order of the
identifiers used here coincides with the sorted key order pandas produces. -/
def perIcaoCompress (df : List Row) : List Row :=
  (uniqueList (df.map Row.icao)).flatMap
    (fun i => compress_df i (df.filter (fun row => row.icao == i)))

/-- The pure part of `load_historical_for_day`: given the raw rows the
day-loader returned (already null-normalised to empty strings), return the
day's compressed records. Mirrors: empty input returned as is; sort by
`['icao', 'time']`; `fillna('')` (identity here); quick exact dedup; per-ICAO
compression. The final column reorder has no counterpart in this model. -/
def load_historical_for_day (raw : List Row) : List Row :=
  if raw.isEmpty then []
  else perIcaoCompress (dropDuplicatesIcaoContent (sortByIcaoTime raw))

/-- Comparison of `(icao, signature)` pairs, icao first, both by string
code-point order. -/
def pairLeb (a b : String × String) : Bool :=
  if a.1 == b.1 then strLeb a.2 b.2 else strLeb a.1 b.1

/-- `deduplicate_by_signature(df)` from `worker.py` (same code in
`reducer.py`): compute signatures, group by `['icao', '_signature']` keeping
the first row of each group (group keys sorted, as pandas does), drop the
signature column and sort the result by `time`. -/
def deduplicate_by_signature (df : List Row) : List Row :=
  let keys := sortLeb pairLeb (uniqueList (df.map (fun row => (row.icao, signature row))))
  let kept := keys.filterMap
    (fun k => df.find? (fun row => row.icao == k.1 && signature row == k.2))
  sortByTime kept

/-- Outcome of one worker invocation (`worker.py main`): either it publishes
a chunk artifact with the given rows, or it prints that no data was collected
and returns normally without publishing. -/
inductive WorkerOutcome where
  | published (rows : List Row)
  | noData
deriving DecidableEq, Repr

/-- The worker main loop over its assigned days. Each day is the result of
attempting `load_historical_for_day`: `Except.error` models a raised loader
exception (caught, a warning is printed, and the loop continues with the next
day), `Except.ok raw` carries the raw rows the day-loader returned. After the
loop, an empty accumulator means "No data collected — exiting." (a normal
return with nothing published); otherwise the accumulated rows are
deduplicated by signature and published. -/
def workerAccum (days : List (Except String (List Row))) : List Row :=
  days.foldl
    (fun acc d =>
      match d with
      | .error _ => acc
      | .ok raw => acc ++ load_historical_for_day raw) []

/-- The worker main (`worker.py main`), continued: an empty accumulator after
the last day means "No data collected — exiting."; otherwise the accumulated
rows are deduplicated by signature and the artifact is published. -/
def worker_main (days : List (Except String (List Row))) : WorkerOutcome :=
  let acc := workerAccum days
  if acc.isEmpty then .noData
  else .published (deduplicate_by_signature acc)

/-- Outcome of the reducer (`reducer.py main`) short of the fatal-error
channel: finding no chunk keys prints "No chunks found — nothing to reduce."
and returns normally; otherwise the concatenated chunks are deduplicated and
published as the final artifact. -/
inductive ReducerOutcome where
  | nothingToReduce
  | finalArtifact (rows : List Row)
deriving DecidableEq, Repr

/-- The reducer main: `chunks` are the downloaded chunk tables for the run,
in key order. An `Except.error` result would model a fatal failure
(an uncaught exception or a non-zero process exit); the code has no such path
here — zero chunks take the early normal `return`. -/
def reducer_main (chunks : List (List Row)) : Except String ReducerOutcome :=
  if chunks.isEmpty then .ok .nothingToReduce
  else .ok (.finalArtifact (deduplicate_by_signature (chunks.foldl (· ++ ·) [])))

/-- Whether a process outcome is a fatal failure. -/
def isFatal {α : Type} : Except String α → Bool
  | .error _ => true
  | .ok _ => false

/-- `BATCH_SIZE = 100_000` in `process_icao_chunk.py`. -/
def BATCH_SIZE : Nat := 100000

/-- `safe_process(filepath)`: return the parsed rows, or the empty list when
the external parser raised (the error is printed and the file skipped). The
argument is the result of attempting the external `process_file`. -/
def safe_process (res : Except String (List Row)) : List Row :=
  match res with
  | .ok rows => rows
  | .error _ => []

/-- The batching loop of `process_chunk`: extend the buffer with each file's
rows (skipping files that parsed to nothing), flush the buffer to the sink
whenever it reaches `BATCH_SIZE`, and flush the remainder at the end. `write`
models `writer.write_table`; its error aborts the whole unit. Returns the
total number of rows written. -/
def writeBatches (write : List Row → Except String Unit) :
    List (Except String (List Row)) → List Row → Nat → Except String Nat
  | [], batch, total =>
    if batch.isEmpty then .ok total
    else do
      write batch
      .ok (total + batch.length)
  | res :: rest, batch, total =>
    let rows := safe_process res
    if rows.isEmpty then writeBatches write rest batch total
    else
      let batch' := batch ++ rows
      if BATCH_SIZE ≤ batch'.length then do
        write batch'
        writeBatches write rest [] (total + batch'.length)
      else writeBatches write rest batch' total

/-- `process_chunk(trace_map, chunk_id, output_id)`: run the batching loop
over the per-file parse results and return the output path when at least one
row was written, `none` otherwise; a sink error propagates. -/
def process_chunk (write : List Row → Except String Unit) (outputPath : String)
    (parses : List (Except String (List Row))) : Except String (Option String) := do
  let total ← writeBatches write parses [] 0
  .ok (if 0 < total then some outputPath else none)

/-- Total number of rows the parse results contribute after `safe_process`. -/
def totalParsedRows (parses : List (Except String (List Row))) : Nat :=
  (parses.map (fun p => (safe_process p).length)).sum

/-- The top-level names defined by the module
`compress_adsb_to_aircraft_data.py` (its import and the constants/functions
it defines; read off the source file). -/
def compress_module_names : List String :=
  ["os", "COLUMNS", "compress_df", "load_raw_adsb_for_day",
   "load_historical_for_day", "concat_compressed_dfs",
   "get_latest_aircraft_adsb_csv_df"]

/-- Python `from module import names`: succeeds only when every requested
name is defined by the module, otherwise raises `ImportError`. -/
def from_import (module : List String) (names : List String) : Except String Unit :=
  if names.all (fun n => module.contains n) then .ok ()
  else .error "ImportError"

/-- `historical_process_chunk.process_chunk(start, end, output_dir)`: first
executes `from compress_adsb_to_aircraft_data import load_historical_for_day,
deduplicate_by_signature`, then (if the import succeeded) loops over the
days, skipping failed or empty loads, and returns `none` when nothing was
collected or the deduplicated accumulated rows otherwise. The loop body is
never reached; see the import-error theorem. -/
def historical_process_chunk_run (days : List (Except String (List Row))) :
    Except String (Option (List Row)) := do
  from_import compress_module_names
    ["load_historical_for_day", "deduplicate_by_signature"]
  let dfs := days.foldl
    (fun acc d =>
      match d with
      | .error _ => acc
      | .ok raw =>
        let c := load_historical_for_day raw
        if c.isEmpty then acc else acc ++ [c]) []
  if dfs.isEmpty then .ok none
  else .ok (some (deduplicate_by_signature (dfs.foldl (· ++ ·) [])))

/-- `historical_combine_chunks.combine_chunks(chunks_dir, ...)`: first
executes `from compress_adsb_to_aircraft_data import
deduplicate_by_signature`, then (if the import succeeded) would exit fatally
on zero chunk files and otherwise deduplicate and write the concatenation.
The body after the import is never reached; see the import-error theorem. -/
def historical_combine_chunks_run (chunks : List (List Row)) :
    Except String (List Row) := do
  from_import compress_module_names ["deduplicate_by_signature"]
  if chunks.isEmpty then .error "exit 1: No chunk files found"
  else .ok (sortByTime (deduplicate_by_signature (chunks.foldl (· ++ ·) [])))

/-- The chunk artifact contents of a worker outcome (`[]` when nothing was
published). -/
def publishedRows : WorkerOutcome → List Row
  | .published rows => rows
  | .noData => []

/-- `concat_compressed_dfs(df_base, df_new)`: concatenate, sort by
`['icao', 'time']`, `fillna('')` (identity here), re-apply the engine per
aircraft, and sort the result by `time`. -/
def concat_compressed_dfs (df_base df_new : List Row) : List Row :=
  sortByTime (perIcaoCompress (sortByIcaoTime (df_base ++ df_new)))

/-- An observation with the given time, identifier, `dbFlags` and `year`, all
other content attributes unknown (empty). -/
def obs (tm : Nat) (ic db yr : String) : Row :=
  { time := tm, icao := ic, dbFlags := db, ownOp := "", year := yr, desc := "",
    aircraft_category := "", r := "", t := "" }

/-- Day 1 of the synthetic two-day range: `ABC123` reports
`{dbFlags:"1", year:""}`. -/
def c2day1 : List Row := [obs 1 "ABC123" "1" ""]

/-- Day 2 of the synthetic two-day range: `ABC123` reports
`{dbFlags:"1", year:"1999"}`. -/
def c2day2 : List Row := [obs 2 "ABC123" "1" "1999"]

/-! Helper lemmas. -/

theorem mem_uniqueAux {α : Type} [DecidableEq α] (l : List α) :
    ∀ (seen : List α) (a : α), a ∈ uniqueAux seen l ↔ a ∈ l ∧ a ∉ seen := by
  induction l with
  | nil => intro seen a; simp [uniqueAux]
  | cons b rest ih =>
    intro seen a
    by_cases hb : b ∈ seen
    · simp only [uniqueAux, if_pos hb, ih]
      constructor
      · rintro ⟨h1, h2⟩; exact ⟨List.mem_cons_of_mem _ h1, h2⟩
      · rintro ⟨h1, h2⟩
        rcases List.mem_cons.mp h1 with rfl | h1
        · exact absurd hb h2
        · exact ⟨h1, h2⟩
    · rw [uniqueAux, if_neg hb]
      constructor
      · intro hmem
        rcases List.mem_cons.mp hmem with rfl | hmem
        · exact ⟨List.mem_cons_self _ _, hb⟩
        · obtain ⟨h1, h2⟩ := (ih (b :: seen) a).mp hmem
          exact ⟨List.mem_cons_of_mem _ h1,
            fun hs => h2 (List.mem_cons_of_mem _ hs)⟩
      · rintro ⟨h1, h2⟩
        rcases List.mem_cons.mp h1 with rfl | h1
        · exact List.mem_cons_self _ _
        · by_cases hab : a = b
          · exact hab ▸ List.mem_cons_self _ _
          · refine List.mem_cons_of_mem _ ((ih (b :: seen) a).mpr ⟨h1, fun hs => ?_⟩)
            rcases List.mem_cons.mp hs with h | h
            · exact hab h
            · exact h2 h

theorem nodup_uniqueAux {α : Type} [DecidableEq α] (l : List α) :
    ∀ seen : List α, (uniqueAux seen l).Nodup := by
  induction l with
  | nil => intro seen; simp [uniqueAux]
  | cons b rest ih =>
    intro seen
    by_cases hb : b ∈ seen
    · simpa [uniqueAux, hb] using ih seen
    · simp only [uniqueAux, if_neg hb, List.nodup_cons]
      refine ⟨fun hmem => ?_, ih (b :: seen)⟩
      exact ((mem_uniqueAux rest (b :: seen) b).mp hmem).2 (List.mem_cons_self b seen)

theorem mem_uniqueList {α : Type} [DecidableEq α] (l : List α) (a : α) :
    a ∈ uniqueList l ↔ a ∈ l := by
  simp [uniqueList, mem_uniqueAux]

theorem nodup_uniqueList {α : Type} [DecidableEq α] (l : List α) :
    (uniqueList l).Nodup :=
  nodup_uniqueAux l []

theorem insertLeb_perm {α : Type} (leb : α → α → Bool) (a : α) :
    ∀ l : List α, (insertLeb leb a l).Perm (a :: l) := by
  intro l
  induction l with
  | nil => simp [insertLeb]
  | cons b rest ih =>
    by_cases h : leb a b
    · simp [insertLeb, h]
    · simp only [insertLeb, if_neg h]
      exact (ih.cons b).trans (List.Perm.swap a b rest)

theorem sortLeb_perm {α : Type} (leb : α → α → Bool) :
    ∀ l : List α, (sortLeb leb l).Perm l := by
  intro l
  induction l with
  | nil => simp [sortLeb]
  | cons a rest ih =>
    exact (insertLeb_perm leb a (sortLeb leb rest)).trans (ih.cons a)

theorem mem_sortLeb {α : Type} (leb : α → α → Bool) (l : List α) (a : α) :
    a ∈ sortLeb leb l ↔ a ∈ l :=
  (sortLeb_perm leb l).mem_iff

theorem nodup_sortLeb {α : Type} (leb : α → α → Bool) (l : List α)
    (h : l.Nodup) : (sortLeb leb l).Nodup :=
  (sortLeb_perm leb l).nodup_iff.mpr h

theorem find?_eq_some_decomp {α : Type} (p : α → Bool) :
    ∀ (l : List α) (a : α), l.find? p = some a →
      p a = true ∧ ∃ pre post, l = pre ++ a :: post ∧ ∀ b ∈ pre, p b = false := by
  intro l
  induction l with
  | nil => intro a h; simp [List.find?] at h
  | cons b rest ih =>
    intro a h
    by_cases hb : p b
    · rw [List.find?_cons_of_pos _ hb] at h
      cases h
      exact ⟨hb, [], rest, rfl, by simp⟩
    · rw [List.find?_cons_of_neg _ (by simpa using hb)] at h
      obtain ⟨hpa, pre, post, hdecomp, hpre⟩ := ih a h
      refine ⟨hpa, b :: pre, post, by simp [hdecomp], ?_⟩
      intro c hc
      rcases List.mem_cons.mp hc with rfl | hc
      · simpa using hb
      · exact hpre c hc

theorem map_filterMap_eq_filter {α β : Type} (f : α → Option β) (g : β → α)
    (h : ∀ a b, f a = some b → g b = a) :
    ∀ l : List α, (l.filterMap f).map g = l.filter (fun a => (f a).isSome) := by
  intro l
  induction l with
  | nil => rfl
  | cons a rest ih =>
    cases hf : f a with
    | none => simp [List.filterMap_cons, hf, ih]
    | some b => simp [List.filterMap_cons, hf, ih, h a b hf]

theorem map_filter_congr {α β : Type} (P : α → Bool) (Q : β → Bool) (g : α → β) :
    ∀ l : List α, (∀ x ∈ l, P x = Q (g x)) →
      (l.filter P).map g = (l.map g).filter Q := by
  intro l
  induction l with
  | nil => intro _; rfl
  | cons a rest ih =>
    intro h
    have ha := h a (List.mem_cons_self a rest)
    have hrest : ∀ x ∈ rest, P x = Q (g x) :=
      fun x hx => h x (List.mem_cons_of_mem _ hx)
    by_cases hp : P a
    · simp [List.filter_cons, hp, ← ha, ih hrest]
    · simp [List.filter_cons, hp, ← ha, ih hrest]

theorem enumFrom_map_snd {α : Type} (l : List α) :
    ∀ n : Nat, (l.enumFrom n).map Prod.snd = l := by
  induction l with
  | nil => intro n; rfl
  | cons a rest ih => intro n; simp [List.enumFrom, ih]

theorem enum_map_snd {α : Type} (l : List α) : l.enum.map Prod.snd = l :=
  enumFrom_map_snd l 0

theorem snd_mem_of_mem_enum {α : Type} {l : List α} {p : Nat × α}
    (h : p ∈ l.enum) : p.2 ∈ l := by
  have := List.mem_enum_iff_get?.mp h
  exact List.get?_mem this

theorem exists_enum_of_mem {α : Type} {l : List α} {a : α} (h : a ∈ l) :
    ∃ i, (i, a) ∈ l.enum := by
  obtain ⟨n, hn⟩ := List.get?_of_mem h
  exact ⟨n, List.mem_enum_iff_get?.mpr hn⟩

theorem enum_index_inj {α : Type} {l : List α} (hl : l.Nodup) {i j : Nat} {a : α}
    (hi : (i, a) ∈ l.enum) (hj : (j, a) ∈ l.enum) : i = j := by
  have h1 := List.mem_enum_iff_get?.mp hi
  have h2 := List.mem_enum_iff_get?.mp hj
  have hlt : i < l.length := by
    by_contra hge
    rw [List.get?_eq_none.mpr (Nat.le_of_not_lt hge)] at h1
    exact Option.noConfusion h1
  apply List.getElem?_inj hlt hl
  rw [← List.get?_eq_getElem?, ← List.get?_eq_getElem?]
  rw [h1, h2]

theorem enum_value_at_index {α : Type} {l : List α} {i : Nat} {a b : α}
    (hi : (i, a) ∈ l.enum) (hj : (i, b) ∈ l.enum) : a = b := by
  have h1 := List.mem_enum_iff_get?.mp hi
  have h2 := List.mem_enum_iff_get?.mp hj
  rw [h1] at h2
  exact Option.some.inj h2

theorem isSubsetOfAny_eq_any (l : List Row) (hl : l.Nodup) (i : Nat) (R : Row)
    (hmem : (i, R) ∈ l.enum) :
    isSubsetOfAny l.enum i R =
      l.any (fun other => (!(other == R)) && subsetMatch R other &&
        decide (nonEmptyCount R < nonEmptyCount other)) := by
  rw [Bool.eq_iff_iff]
  unfold isSubsetOfAny
  simp only [List.any_eq_true, Bool.and_eq_true, Bool.not_eq_true',
    beq_eq_false_iff_ne, ne_eq, decide_eq_true_eq]
  constructor
  · rintro ⟨p, hp, ⟨hij, hsub⟩, hlt⟩
    refine ⟨p.2, snd_mem_of_mem_enum hp, ⟨fun hval => ?_, hsub⟩, hlt⟩
    subst hval
    exact hij (enum_index_inj hl hp hmem)
  · rintro ⟨S, hS, ⟨hne, hsub⟩, hlt⟩
    obtain ⟨j, hj⟩ := exists_enum_of_mem hS
    refine ⟨(j, S), hj, ⟨fun hij => ?_, hsub⟩, hlt⟩
    subst hij
    exact hne (enum_value_at_index hj hmem)

theorem subsumptionFilter_eq_filter (l : List Row) (hl : l.Nodup) :
    subsumptionFilter l = l.filter (fun row =>
      !(l.any (fun other => (!(other == row)) && subsetMatch row other &&
        decide (nonEmptyCount row < nonEmptyCount other)))) := by
  unfold subsumptionFilter
  rw [map_filter_congr _
    (fun row => !(l.any (fun other => (!(other == row)) && subsetMatch row other &&
      decide (nonEmptyCount row < nonEmptyCount other)))) Prod.snd l.enum
    (fun p hp => by rw [isSubsetOfAny_eq_any l hl p.1 p.2 (by simpa using hp)]),
    enum_map_snd]

theorem mem_subsumptionFilter (l : List Row) (hl : l.Nodup) (R : Row) :
    R ∈ subsumptionFilter l ↔ R ∈ l ∧
      ¬ ∃ S ∈ l, S ≠ R ∧ subsetMatch R S = true ∧
        nonEmptyCount R < nonEmptyCount S := by
  rw [subsumptionFilter_eq_filter l hl, List.mem_filter]
  simp only [Bool.not_eq_true', List.any_eq_false, Bool.and_eq_true,
    Bool.not_eq_true', beq_eq_false_iff_ne, ne_eq, decide_eq_true_eq,
    not_exists, not_and]
  constructor
  · rintro ⟨hmem, hall⟩
    exact ⟨hmem, fun S hS hne hsub => hall S hS ⟨hne, hsub⟩⟩
  · rintro ⟨hmem, hnot⟩
    exact ⟨hmem, fun S hS h => hnot S hS h.1 h.2⟩

theorem exists_max_nonEmptyCount (l : List Row) :
    l ≠ [] → ∃ m ∈ l, ∀ x ∈ l, nonEmptyCount x ≤ nonEmptyCount m := by
  induction l with
  | nil => intro h; exact absurd rfl h
  | cons a rest ih =>
    intro _
    rcases eq_or_ne rest [] with rfl | hne
    · exact ⟨a, by simp, by simp⟩
    · obtain ⟨m, hm, hmax⟩ := ih hne
      by_cases hc : nonEmptyCount a ≤ nonEmptyCount m
      · refine ⟨m, List.mem_cons_of_mem _ hm, fun x hx => ?_⟩
        rcases List.mem_cons.mp hx with rfl | hx
        · exact hc
        · exact hmax x hx
      · refine ⟨a, List.mem_cons_self _ _, fun x hx => ?_⟩
        rcases List.mem_cons.mp hx with rfl | hx
        · exact le_refl _
        · exact le_trans (hmax x hx) (le_of_not_le hc)

theorem subsumptionFilter_ne_nil (l : List Row) (hl : l.Nodup) (h : l ≠ []) :
    subsumptionFilter l ≠ [] := by
  obtain ⟨m, hm, hmax⟩ := exists_max_nonEmptyCount l h
  have hmem : m ∈ subsumptionFilter l := by
    rw [mem_subsumptionFilter l hl]
    refine ⟨hm, ?_⟩
    rintro ⟨S, hS, _, _, hlt⟩
    exact absurd (hmax S hS) (not_le.mpr hlt)
  exact List.ne_nil_of_mem hmem

theorem subsumptionFilter_sublist (l : List Row) (hl : l.Nodup) :
    (subsumptionFilter l).Sublist l := by
  rw [subsumptionFilter_eq_filter l hl]
  exact List.filter_sublist l

theorem find?_sig_eq (df : List Row) (s : String) (R : Row)
    (h : df.find? (fun row => signature row == s) = some R) : signature R = s := by
  have := List.find?_some h
  simpa using this

theorem groupFirst_map_signature (df : List Row) :
    (groupFirst df).map signature =
      (sortLeb strLeb (uniqueList (df.map signature))).filter
        (fun s => (df.find? (fun row => signature row == s)).isSome) := by
  unfold groupFirst
  exact map_filterMap_eq_filter _ _ (fun s R h => find?_sig_eq df s R h) _

theorem groupFirst_sig_nodup (df : List Row) :
    ((groupFirst df).map signature).Nodup := by
  rw [groupFirst_map_signature]
  exact (nodup_sortLeb _ _ (nodup_uniqueList _)).filter _

theorem groupFirst_nodup (df : List Row) : (groupFirst df).Nodup :=
  (groupFirst_sig_nodup df).of_map

theorem mem_groupFirst_find (df : List Row) (R : Row) (h : R ∈ groupFirst df) :
    df.find? (fun row => signature row == signature R) = some R := by
  obtain ⟨s, _, hfind⟩ := List.mem_filterMap.mp h
  have hsig := find?_sig_eq df s R hfind
  rwa [← hsig] at hfind

theorem groupFirst_covers (df : List Row) (S : Row) (hS : S ∈ df) :
    ∃ R ∈ groupFirst df, signature R = signature S := by
  have hmemsig : signature S ∈ sortLeb strLeb (uniqueList (df.map signature)) := by
    rw [mem_sortLeb, mem_uniqueList]
    exact List.mem_map_of_mem _ hS
  have hfind : (df.find? (fun row => signature row == signature S)).isSome := by
    rcases hcase : df.find? (fun row => signature row == signature S) with _ | R
    · have := List.find?_eq_none.mp hcase S hS
      simp at this
    · rfl
  obtain ⟨R, hR⟩ := Option.isSome_iff_exists.mp hfind
  exact ⟨R, List.mem_filterMap.mpr ⟨signature S, hmemsig, hR⟩, find?_sig_eq df _ R hR⟩

theorem groupFirst_ne_nil (df : List Row) (h : df ≠ []) : groupFirst df ≠ [] := by
  obtain ⟨S, hS⟩ := List.exists_mem_of_ne_nil df h
  obtain ⟨R, hR, _⟩ := groupFirst_covers df S hS
  exact List.ne_nil_of_mem hR

theorem le_maxRawCount (cnt : String → Nat) (l : List Row) :
    ∀ x ∈ l, cnt (signature x) ≤ maxRawCount cnt l := by
  induction l with
  | nil => intro x hx; simp at hx
  | cons a rest ih =>
    intro x hx
    rcases List.mem_cons.mp hx with rfl | hx
    · exact le_max_left _ _
    · exact le_trans (ih x hx) (le_max_right _ _)

theorem firstMaxSig_spec (cnt : String → Nat) (l : List Row) (h : l ≠ []) :
    ∃ pre chosen post, l = pre ++ chosen :: post ∧
      firstMaxSig cnt l = signature chosen ∧
      cnt (signature chosen) = maxRawCount cnt l ∧
      ∀ x ∈ pre, cnt (signature x) < cnt (signature chosen) := by
  induction l with
  | nil => exact absurd rfl h
  | cons row rest ih =>
    by_cases h1 : maxRawCount cnt rest ≤ cnt (signature row)
    · refine ⟨[], row, rest, rfl, ?_, ?_, by simp⟩
      · simp [firstMaxSig, h1]
      · have hstep : maxRawCount cnt (row :: rest) =
            max (cnt (signature row)) (maxRawCount cnt rest) := rfl
        rw [hstep, Nat.max_eq_left h1]
    · have hlt : cnt (signature row) < maxRawCount cnt rest := Nat.lt_of_not_le h1
      have hne : rest ≠ [] := by
        rintro rfl
        simp [maxRawCount] at hlt
      obtain ⟨pre, chosen, post, hdecomp, hsig, hmax, hpre⟩ := ih hne
      refine ⟨row :: pre, chosen, post, by simp [hdecomp], ?_, ?_, ?_⟩
      · simp [firstMaxSig, h1, hsig]
      · have hstep : maxRawCount cnt (row :: rest) =
            max (cnt (signature row)) (maxRawCount cnt rest) := rfl
        rw [hstep, Nat.max_eq_right (Nat.le_of_lt hlt), hmax]
      · intro x hx
        rcases List.mem_cons.mp hx with rfl | hx
        · rw [hmax]; exact hlt
        · exact hpre x hx

theorem filter_sig_singleton (l : List Row) (hl : (l.map signature).Nodup)
    (pre post : List Row) (chosen : Row) (hdecomp : l = pre ++ chosen :: post) :
    l.filter (fun row => signature row == signature chosen) = [chosen] := by
  subst hdecomp
  rw [List.map_append, List.map_cons] at hl
  rw [List.nodup_append] at hl
  obtain ⟨_, hcons, hdisj⟩ := hl
  rw [List.nodup_cons] at hcons
  have hpre : ∀ x ∈ pre, ¬ (signature x == signature chosen) = true := by
    intro x hx hbeq
    have hsigeq : signature x = signature chosen := by simpa using hbeq
    exact hdisj (hsigeq ▸ List.mem_map_of_mem _ hx) (List.mem_cons_self _ _)
  have hpost : ∀ x ∈ post, ¬ (signature x == signature chosen) = true := by
    intro x hx hbeq
    have hsigeq : signature x = signature chosen := by simpa using hbeq
    exact hcons.1 (hsigeq ▸ List.mem_map_of_mem _ hx)
  rw [List.filter_append, List.filter_cons]
  simp only [beq_self_eq_true, if_pos]
  rw [List.filter_eq_nil.mpr hpre, List.filter_eq_nil.mpr hpost]
  rfl

theorem workerAccum_skip_error (pre post : List (Except String (List Row))) (e : String) :
    workerAccum (pre ++ Except.error e :: post) = workerAccum (pre ++ post) := by
  simp only [workerAccum, List.foldl_append, List.foldl_cons]

theorem worker_fold_const (days : List (Except String (List Row)))
    (h : ∀ d ∈ days, safe_process d = []) :
    ∀ acc : List Row,
      days.foldl
        (fun acc d =>
          match d with
          | .error _ => acc
          | .ok raw => acc ++ load_historical_for_day raw) acc = acc := by
  induction days with
  | nil => intro acc; rfl
  | cons d rest ih =>
    intro acc
    have hrest : ∀ x ∈ rest, safe_process x = [] := fun x hx => h x (by simp [hx])
    cases d with
    | error e => simpa using ih hrest acc
    | ok raw =>
      have hraw : raw = [] := by simpa [safe_process] using h (.ok raw) (by simp)
      subst hraw
      simpa [load_historical_for_day] using ih hrest acc

theorem workerAccum_all_empty (days : List (Except String (List Row)))
    (h : ∀ d ∈ days, safe_process d = []) : workerAccum days = [] :=
  worker_fold_const days h []

theorem writeBatches_all_ok (parses : List (Except String (List Row))) :
    ∀ (batch : List Row) (total : Nat),
      writeBatches (fun _ => .ok ()) parses batch total =
        .ok (total + batch.length + totalParsedRows parses) := by
  induction parses with
  | nil =>
    intro batch total
    by_cases hb : batch.isEmpty
    · have hb' : batch = [] := by simpa using hb
      subst hb'
      simp [writeBatches, totalParsedRows]
    · simp [writeBatches, hb, totalParsedRows, Bind.bind, Except.bind]
  | cons res rest ih =>
    intro batch total
    by_cases hr : (safe_process res).isEmpty
    · have hre : safe_process res = [] := by simpa using hr
      simp [writeBatches, hr, ih, totalParsedRows, hre]
    · by_cases hsz : BATCH_SIZE ≤ (batch ++ safe_process res).length
      · simp only [writeBatches, if_neg hr, if_pos hsz, Bind.bind, Except.bind, ih]
        simp only [Except.ok.injEq, totalParsedRows, List.map_cons, List.sum_cons,
          List.length_append, List.length_nil]
        omega
      · simp only [writeBatches, if_neg hr, if_neg hsz, ih]
        simp only [Except.ok.injEq, totalParsedRows, List.map_cons, List.sum_cons,
          List.length_append]
        omega

theorem writeBatches_congr_front (w : List Row → Except String Unit)
    (l1 l2 : List (Except String (List Row)))
    (h : ∀ b t, writeBatches w l1 b t = writeBatches w l2 b t) :
    ∀ (pre : List (Except String (List Row))) (b : List Row) (t : Nat),
      writeBatches w (pre ++ l1) b t = writeBatches w (pre ++ l2) b t := by
  intro pre
  induction pre with
  | nil => exact h
  | cons res rest ih =>
    intro b t
    by_cases hr : (safe_process res).isEmpty
    · simp only [List.cons_append, writeBatches, if_pos hr]
      exact ih b t
    · by_cases hsz : BATCH_SIZE ≤ (b ++ safe_process res).length
      · simp only [List.cons_append, writeBatches, if_neg hr, if_pos hsz,
          Bind.bind, Except.bind]
        cases w (b ++ safe_process res) with
        | error e => rfl
        | ok u => exact ih [] (t + (b ++ safe_process res).length)
      · simp only [List.cons_append, writeBatches, if_neg hr, if_neg hsz]
        exact ih (b ++ safe_process res) t

theorem writeBatches_sink_error (msg : String) :
    ∀ (parses : List (Except String (List Row))) (batch : List Row) (total : Nat),
      0 < batch.length + totalParsedRows parses →
      writeBatches (fun _ => .error msg) parses batch total = .error msg := by
  intro parses
  induction parses with
  | nil =>
    intro batch total h
    have hb : ¬ batch.isEmpty := by
      simp [totalParsedRows] at h
      simp [List.isEmpty_iff, ← List.length_pos_iff_ne_nil]
      omega
    simp [writeBatches, hb, Bind.bind, Except.bind]
  | cons res rest ih =>
    intro batch total h
    have hcount : totalParsedRows (res :: rest) =
        (safe_process res).length + totalParsedRows rest := by
      simp [totalParsedRows]
    by_cases hr : (safe_process res).isEmpty
    · have hre : safe_process res = [] := by simpa using hr
      simp only [writeBatches, if_pos hr]
      exact ih batch total (by rw [hcount, hre] at h; simpa using h)
    · by_cases hsz : BATCH_SIZE ≤ (batch ++ safe_process res).length
      · simp only [writeBatches, if_neg hr, if_pos hsz, Bind.bind, Except.bind]
      · simp only [writeBatches, if_neg hr, if_neg hsz]
        have hlen : 0 < (safe_process res).length := by
          simpa [List.isEmpty_iff, List.length_pos_iff_ne_nil] using hr
        exact ih (batch ++ safe_process res) total
          (by simp [List.length_append]; omega)

theorem charListLeb_total : ∀ as bs : List Char,
    charListLeb as bs = true ∨ charListLeb bs as = true := by
  intro as
  induction as with
  | nil => intro bs; exact Or.inl rfl
  | cons a as ih =>
    intro bs
    cases bs with
    | nil => exact Or.inr rfl
    | cons b bs =>
      rcases Nat.lt_trichotomy a.toNat b.toNat with h | h | h
      · exact Or.inl (by simp [charListLeb, h])
      · rcases ih bs with h' | h'
        · exact Or.inl (by simp [charListLeb, h, h'])
        · exact Or.inr (by simp [charListLeb, h.symm, h'])
      · exact Or.inr (by simp [charListLeb, h])

theorem charListLeb_trans : ∀ as bs cs : List Char,
    charListLeb as bs = true → charListLeb bs cs = true →
    charListLeb as cs = true := by
  intro as
  induction as with
  | nil => intro bs cs _ _; rfl
  | cons a as ih =>
    intro bs cs h1 h2
    cases bs with
    | nil => simp [charListLeb] at h1
    | cons b bs =>
      cases cs with
      | nil => simp [charListLeb] at h2
      | cons c cs =>
        rcases Nat.lt_trichotomy a.toNat b.toNat with hab | hab | hab
        · rcases Nat.lt_trichotomy b.toNat c.toNat with hbc | hbc | hbc
          · simp [charListLeb, Nat.lt_trans hab hbc]
          · simp [charListLeb, hbc ▸ hab]
          · simp [charListLeb, hab, Nat.lt_asymm hab] at h1 ⊢
            simp [charListLeb, hbc, Nat.lt_asymm hbc] at h2
        · rcases Nat.lt_trichotomy b.toNat c.toNat with hbc | hbc | hbc
          · simp [charListLeb, hab ▸ hbc]
          · have hac : a.toNat = c.toNat := hab.trans hbc
            simp [charListLeb, hab, hbc, hac, Nat.lt_irrefl] at h1 h2 ⊢
            exact ih bs cs h1 h2
          · simp [charListLeb, hbc, Nat.lt_asymm hbc] at h2
        · simp [charListLeb, hab, Nat.lt_asymm hab] at h1

theorem charListLeb_antisymm : ∀ as bs : List Char,
    charListLeb as bs = true → charListLeb bs as = true → as = bs := by
  intro as
  induction as with
  | nil =>
    intro bs _ h2
    cases bs with
    | nil => rfl
    | cons b bs => simp [charListLeb] at h2
  | cons a as ih =>
    intro bs h1 h2
    cases bs with
    | nil => simp [charListLeb] at h1
    | cons b bs =>
      rcases Nat.lt_trichotomy a.toNat b.toNat with hab | hab | hab
      · simp [charListLeb, hab, Nat.lt_asymm hab] at h2
      · have hchar : a = b := Char.eq_of_val_eq (UInt32.toNat.inj hab)
        subst hchar
        simp [charListLeb, Nat.lt_irrefl] at h1 h2
        exact congrArg (a :: ·) (ih bs h1 h2)
      · simp [charListLeb, hab, Nat.lt_asymm hab] at h1

theorem strLeb_total (a b : String) : strLeb a b = true ∨ strLeb b a = true :=
  charListLeb_total a.data b.data

theorem strLeb_trans {a b c : String} (h1 : strLeb a b = true)
    (h2 : strLeb b c = true) : strLeb a c = true :=
  charListLeb_trans a.data b.data c.data h1 h2

theorem strLeb_antisymm {a b : String} (h1 : strLeb a b = true)
    (h2 : strLeb b a = true) : a = b := by
  cases a with
  | mk as =>
    cases b with
    | mk bs =>
      exact congrArg String.mk (charListLeb_antisymm as bs h1 h2)

theorem rowKeyLeb_total (x y : Row) : rowKeyLeb x y = true ∨ rowKeyLeb y x = true := by
  unfold rowKeyLeb
  by_cases h : x.icao = y.icao
  · simp [h]
    omega
  · have h' : ¬ y.icao = x.icao := fun hyx => h hyx.symm
    simp [h, h']
    exact strLeb_total x.icao y.icao

theorem rowKeyLeb_trans {x y z : Row} (h1 : rowKeyLeb x y = true)
    (h2 : rowKeyLeb y z = true) : rowKeyLeb x z = true := by
  unfold rowKeyLeb at h1 h2 ⊢
  by_cases e1 : x.icao = y.icao
  · by_cases e2 : y.icao = z.icao
    · have e3 : x.icao = z.icao := e1.trans e2
      simp [e1, e2, e3] at h1 h2 ⊢
      omega
    · have e3 : ¬ x.icao = z.icao := fun h => e2 (e1.symm.trans h)
      have h2' : strLeb y.icao z.icao = true := by simpa [e2] using h2
      simp [e3]
      rw [e1]
      exact h2'
  · by_cases e2 : y.icao = z.icao
    · have e3 : ¬ x.icao = z.icao := fun h => e1 (h.trans e2.symm)
      have h1' : strLeb x.icao y.icao = true := by simpa [e1] using h1
      simp [e3]
      rw [← e2]
      exact h1'
    · have hxy : strLeb x.icao y.icao = true := by simpa [e1] using h1
      have hyz : strLeb y.icao z.icao = true := by simpa [e2] using h2
      have e3 : ¬ x.icao = z.icao := by
        intro h
        exact e1 (strLeb_antisymm hxy (h ▸ hyz))
      simp [e3]
      exact strLeb_trans hxy hyz

theorem timeLeb_total (x y : Row) : timeLeb x y = true ∨ timeLeb y x = true := by
  simp [timeLeb]
  omega

theorem timeLeb_trans {x y z : Row} (h1 : timeLeb x y = true)
    (h2 : timeLeb y z = true) : timeLeb x z = true := by
  simp [timeLeb] at h1 h2 ⊢
  omega

theorem insertLeb_eq_cons {α : Type} (leb : α → α → Bool) (x : α) (l : List α)
    (h : ∀ c ∈ l, leb x c = true) : insertLeb leb x l = x :: l := by
  cases l with
  | nil => rfl
  | cons c rest => rw [insertLeb, if_pos (h c (List.mem_cons_self _ _))]

theorem mem_insertLeb {α : Type} (leb : α → α → Bool) (x a : α) (l : List α) :
    a ∈ insertLeb leb x l ↔ a = x ∨ a ∈ l := by
  rw [(insertLeb_perm leb x l).mem_iff, List.mem_cons]

theorem insertLeb_pairwise {α : Type} (leb : α → α → Bool)
    (htot : ∀ u v, leb u v = true ∨ leb v u = true)
    (htrans : ∀ u v w, leb u v = true → leb v w = true → leb u w = true)
    (x : α) : ∀ l : List α, l.Pairwise (fun u v => leb u v = true) →
      (insertLeb leb x l).Pairwise (fun u v => leb u v = true) := by
  intro l
  induction l with
  | nil => intro _; simp [insertLeb]
  | cons b rest ih =>
    intro hp
    obtain ⟨hb, hrest⟩ := List.pairwise_cons.mp hp
    by_cases hleb : leb x b
    · rw [insertLeb, if_pos hleb]
      refine List.pairwise_cons.mpr ⟨?_, hp⟩
      intro c hc
      rcases List.mem_cons.mp hc with rfl | hc
      · exact hleb
      · exact htrans x b c hleb (hb c hc)
    · rw [insertLeb, if_neg hleb]
      refine List.pairwise_cons.mpr ⟨?_, ih hrest⟩
      intro c hc
      rcases (mem_insertLeb leb x c rest).mp hc with rfl | hc
      · rcases htot c b with h | h
        · exact absurd h hleb
        · exact h
      · exact hb c hc

theorem sortLeb_sorted {α : Type} (leb : α → α → Bool)
    (htot : ∀ u v, leb u v = true ∨ leb v u = true)
    (htrans : ∀ u v w, leb u v = true → leb v w = true → leb u w = true) :
    ∀ l : List α, (sortLeb leb l).Pairwise (fun u v => leb u v = true) := by
  intro l
  induction l with
  | nil => simp [sortLeb]
  | cons a rest ih => exact insertLeb_pairwise leb htot htrans a _ ih

theorem insertLeb_filter_pos {α : Type} (leb : α → α → Bool) (p : α → Bool)
    (htrans : ∀ u v w, leb u v = true → leb v w = true → leb u w = true)
    (x : α) (hx : p x = true) :
    ∀ l : List α, l.Pairwise (fun u v => leb u v = true) →
      (insertLeb leb x l).filter p = insertLeb leb x (l.filter p) := by
  intro l
  induction l with
  | nil => simp [insertLeb, List.filter, hx]
  | cons b rest ih =>
    intro hp
    obtain ⟨hb, hrest⟩ := List.pairwise_cons.mp hp
    by_cases hleb : leb x b
    · rw [insertLeb, if_pos hleb]
      by_cases hpb : p b
      · rw [List.filter_cons, if_pos hx, List.filter_cons, if_pos hpb]
        rw [insertLeb, if_pos hleb]
      · rw [List.filter_cons, if_pos hx, List.filter_cons, if_neg hpb]
        refine (insertLeb_eq_cons leb x _ ?_).symm
        intro c hc
        exact htrans x b c hleb (hb c (List.mem_of_mem_filter hc))
    · rw [insertLeb, if_neg hleb]
      by_cases hpb : p b
      · rw [List.filter_cons, if_pos hpb, List.filter_cons, if_pos hpb,
          insertLeb, if_neg hleb, ih hrest]
      · rw [List.filter_cons, if_neg hpb, List.filter_cons, if_neg hpb, ih hrest]

theorem insertLeb_filter_neg {α : Type} (leb : α → α → Bool) (p : α → Bool)
    (x : α) (hx : p x = false) :
    ∀ l : List α, (insertLeb leb x l).filter p = l.filter p := by
  intro l
  induction l with
  | nil => simp [insertLeb, List.filter, hx]
  | cons b rest ih =>
    by_cases hleb : leb x b
    · rw [insertLeb, if_pos hleb, List.filter_cons, if_neg (by simp [hx])]
    · rw [insertLeb, if_neg hleb]
      by_cases hpb : p b
      · rw [List.filter_cons, if_pos hpb, List.filter_cons, if_pos hpb, ih]
      · rw [List.filter_cons, if_neg hpb, List.filter_cons, if_neg hpb, ih]

theorem sortLeb_filter {α : Type} (leb : α → α → Bool) (p : α → Bool)
    (htot : ∀ u v, leb u v = true ∨ leb v u = true)
    (htrans : ∀ u v w, leb u v = true → leb v w = true → leb u w = true) :
    ∀ l : List α, (sortLeb leb l).filter p = sortLeb leb (l.filter p) := by
  intro l
  induction l with
  | nil => rfl
  | cons x rest ih =>
    show (insertLeb leb x (sortLeb leb rest)).filter p = sortLeb leb ((x :: rest).filter p)
    by_cases hx : p x
    · rw [insertLeb_filter_pos leb p htrans x hx _ (sortLeb_sorted leb htot htrans rest),
        ih, List.filter_cons, if_pos hx]
      rfl
    · rw [insertLeb_filter_neg leb p x (Bool.eq_false_iff.mpr hx), ih,
        List.filter_cons, if_neg hx]

theorem filter_sortByIcaoTime (df : List Row) (p : Row → Bool) :
    (sortByIcaoTime df).filter p = sortByIcaoTime (df.filter p) :=
  sortLeb_filter rowKeyLeb p rowKeyLeb_total (fun _ _ _ => rowKeyLeb_trans) df

theorem filter_sortByTime (df : List Row) (p : Row → Bool) :
    (sortByTime df).filter p = sortByTime (df.filter p) :=
  sortLeb_filter timeLeb p timeLeb_total (fun _ _ _ => timeLeb_trans) df

theorem compress_df_eq (ic : String) (df : List Row) :
    compress_df ic df =
      (if 1 < (subsumptionFilter (groupFirst df)).length then
        (subsumptionFilter (groupFirst df)).filter
          (fun row => signature row ==
            firstMaxSig (rawSigCount df) (subsumptionFilter (groupFirst df)))
      else subsumptionFilter (groupFirst df)).map
        (fun row => { row with icao := ic }) := rfl

theorem survivors_sig_nodup (df : List Row) :
    ((subsumptionFilter (groupFirst df)).map signature).Nodup := by
  have hsub : List.Sublist ((subsumptionFilter (groupFirst df)).map signature)
      ((groupFirst df).map signature) :=
    (subsumptionFilter_sublist _ (groupFirst_nodup df)).map signature
  exact (groupFirst_sig_nodup df).sublist hsub

theorem compress_df_length_one (ic : String) (df : List Row) (hne : df ≠ []) :
    (compress_df ic df).length = 1 := by
  have hnodup := groupFirst_nodup df
  have hgne := groupFirst_ne_nil df hne
  have hsurvne := subsumptionFilter_ne_nil _ hnodup hgne
  rw [compress_df_eq]
  by_cases hlen : 1 < (subsumptionFilter (groupFirst df)).length
  · rw [if_pos hlen]
    obtain ⟨pre, chosen, post, hdecomp, hsig, _, _⟩ :=
      firstMaxSig_spec (rawSigCount df) _ hsurvne
    rw [hsig, filter_sig_singleton _ (survivors_sig_nodup df) pre post chosen hdecomp]
    rfl
  · rw [if_neg hlen]
    have h0 : (subsumptionFilter (groupFirst df)).length ≠ 0 := by
      simpa [List.length_eq_zero] using hsurvne
    have h1 : (subsumptionFilter (groupFirst df)).length ≤ 1 := Nat.not_lt.mp hlen
    simp only [List.length_map]
    omega

theorem compress_df_nil (ic : String) : compress_df ic [] = [] := rfl

theorem compress_df_cases (ic : String) (g : List Row) :
    compress_df ic g = [] ∨ ∃ r, compress_df ic g = [r] := by
  rcases eq_or_ne g [] with rfl | hne
  · exact Or.inl rfl
  · exact Or.inr (List.length_eq_one.mp (compress_df_length_one ic g hne))

theorem compress_df_icao (ic : String) (g : List Row) :
    ∀ r ∈ compress_df ic g, r.icao = ic := by
  intro r hr
  rw [compress_df_eq] at hr
  obtain ⟨s, _, rfl⟩ := List.mem_map.mp hr
  rfl

theorem compress_df_filter_icao (ic a : String) (g : List Row) :
    (compress_df ic g).filter (fun row => row.icao == a) =
      if ic = a then compress_df ic g else [] := by
  by_cases h : ic = a
  · rw [if_pos h]
    apply List.filter_eq_self.mpr
    intro r hr
    simp [compress_df_icao ic g r hr, h]
  · rw [if_neg h]
    apply List.filter_eq_nil.mpr
    intro r hr hbeq
    exact h ((compress_df_icao ic g r hr).symm.trans (by simpa using hbeq))

theorem compress_df_singleton (ic : String) (r : Row) :
    compress_df ic [r] = [{ r with icao := ic }] := by
  have hgroup : groupFirst [r] = [r] := by
    have h1 : uniqueList [signature r] = [signature r] := rfl
    have h2 : sortLeb strLeb [signature r] = [signature r] := rfl
    have h3 : [r].find? (fun row => signature row == signature r) = some r := by
      rw [List.find?_cons_of_pos _ (by simp)]
    rw [groupFirst, List.map_cons, List.map_nil, h1, h2]
    simp [h3]
  have hsub : subsumptionFilter [r] = [r] := by
    have h4 : isSubsetOfAny [(0, r)] 0 r = false := by
      simp [isSubsetOfAny]
    simp [subsumptionFilter, List.enum, List.enumFrom, h4]
  rw [compress_df_eq, hgroup, hsub]
  rw [if_neg (by simp)]
  rfl

theorem row_update_icao_eq (r : Row) (a : String) (h : r.icao = a) :
    { r with icao := a } = r := by
  rw [← h]

theorem dropDupAux_filter_icao (a : String) :
    ∀ (l : List Row) (seen : List (String × List String)),
      (dropDupAux seen l).filter (fun row => row.icao == a) =
        dropDupAux (seen.filter (fun k => k.1 == a))
          (l.filter (fun row => row.icao == a)) := by
  intro l
  induction l with
  | nil => intro seen; rfl
  | cons row rest ih =>
    intro seen
    have hkey : (contentKey row).1 = row.icao := rfl
    by_cases hmem : contentKey row ∈ seen
    · rw [dropDupAux, if_pos hmem, ih seen, List.filter_cons]
      by_cases hic : (row.icao == a) = true
      · rw [if_pos hic, dropDupAux, if_pos ?_]
        exact List.mem_filter.mpr ⟨hmem, by rw [hkey]; exact hic⟩
      · rw [if_neg hic]
    · rw [dropDupAux, if_neg hmem, List.filter_cons, List.filter_cons]
      by_cases hic : (row.icao == a) = true
      · rw [if_pos hic, if_pos hic, dropDupAux, if_neg ?_, ih]
        · have : (contentKey row :: seen).filter (fun k => k.1 == a) =
              contentKey row :: seen.filter (fun k => k.1 == a) := by
            rw [List.filter_cons, if_pos (by rw [hkey]; exact hic)]
          rw [this]
        · intro hmem'
          exact hmem (List.mem_of_mem_filter hmem')
      · rw [if_neg hic, if_neg hic, ih]
        have : (contentKey row :: seen).filter (fun k => k.1 == a) =
            seen.filter (fun k => k.1 == a) := by
          rw [List.filter_cons, if_neg (by rw [hkey]; exact hic)]
        rw [this]

theorem filter_dropDuplicates_icao (df : List Row) (a : String) :
    (dropDuplicatesIcaoContent df).filter (fun row => row.icao == a) =
      dropDuplicatesIcaoContent (df.filter (fun row => row.icao == a)) := by
  rw [dropDuplicatesIcaoContent, dropDupAux_filter_icao a df []]
  rfl

theorem flatMap_compress_filter (df : List Row) (a : String) :
    ∀ (is : List String), is.Nodup →
      ((is.flatMap (fun i => compress_df i
          (df.filter (fun row => row.icao == i)))).filter
        (fun row => row.icao == a)) =
      (if a ∈ is then compress_df a (df.filter (fun row => row.icao == a))
       else []) := by
  intro is
  induction is with
  | nil => intro _; rfl
  | cons i rest ih =>
    intro hnodup
    obtain ⟨hni, hrest⟩ := List.nodup_cons.mp hnodup
    rw [List.flatMap_cons, List.filter_append, compress_df_filter_icao, ih hrest]
    by_cases hia : i = a
    · subst hia
      rw [if_pos rfl, if_neg hni, if_pos (List.mem_cons_self _ _), List.append_nil]
    · rw [if_neg hia]
      by_cases har : a ∈ rest
      · rw [if_pos har, if_pos (List.mem_cons_of_mem _ har), List.nil_append]
      · have hnotin : a ∉ i :: rest := by
          intro hmem
          rcases List.mem_cons.mp hmem with h | h
          · exact hia h.symm
          · exact har h
        rw [if_neg har, if_neg hnotin]
        rfl

theorem filter_perIcaoCompress (df : List Row) (a : String) :
    (perIcaoCompress df).filter (fun row => row.icao == a) =
      compress_df a (df.filter (fun row => row.icao == a)) := by
  rw [perIcaoCompress,
    flatMap_compress_filter df a _ (nodup_uniqueList (df.map Row.icao))]
  by_cases ha : a ∈ uniqueList (df.map Row.icao)
  · rw [if_pos ha]
  · rw [if_neg ha]
    have hfil : df.filter (fun row => row.icao == a) = [] := by
      apply List.filter_eq_nil.mpr
      intro row hrow hbeq
      apply ha
      rw [mem_uniqueList]
      have : row.icao = a := by simpa using hbeq
      exact this ▸ List.mem_map_of_mem _ hrow
    rw [hfil, compress_df_nil]

theorem load_eq (raw : List Row) :
    load_historical_for_day raw =
      perIcaoCompress (dropDuplicatesIcaoContent (sortByIcaoTime raw)) := by
  rcases eq_or_ne raw [] with rfl | hne
  · rfl
  · rw [load_historical_for_day, if_neg (by simpa [List.isEmpty_iff] using hne)]

theorem filter_icao_load (raw : List Row) (a : String) :
    (load_historical_for_day raw).filter (fun row => row.icao == a) =
      compress_df a (dropDuplicatesIcaoContent (sortByIcaoTime
        (raw.filter (fun row => row.icao == a)))) := by
  rw [load_eq, filter_perIcaoCompress, filter_dropDuplicates_icao,
    filter_sortByIcaoTime]

/-! Claim theorems. -/

/-- Claim C1: for every per-aircraft group of observations (the content
attributes in this model are always non-null strings), `compress_df` returns
at most one record; for a non-empty group it returns exactly one record; for
an empty group it returns zero records. -/
theorem compress_df_cardinality (ic : String) (df : List Row) :
    (compress_df ic df).length ≤ 1 ∧
    (df ≠ [] → (compress_df ic df).length = 1) ∧
    (df = [] → compress_df ic df = []) := by
  have hempty : df = [] → compress_df ic df = [] := by rintro rfl; rfl
  have hone : df ≠ [] → (compress_df ic df).length = 1 := by
    intro hne
    have hnodup := groupFirst_nodup df
    have hgne := groupFirst_ne_nil df hne
    have hsurvne := subsumptionFilter_ne_nil _ hnodup hgne
    rw [compress_df_eq]
    by_cases hlen : 1 < (subsumptionFilter (groupFirst df)).length
    · rw [if_pos hlen]
      obtain ⟨pre, chosen, post, hdecomp, hsig, _, _⟩ :=
        firstMaxSig_spec (rawSigCount df) _ hsurvne
      rw [hsig, filter_sig_singleton _ (survivors_sig_nodup df) pre post chosen hdecomp]
      rfl
    · rw [if_neg hlen]
      have h0 : (subsumptionFilter (groupFirst df)).length ≠ 0 := by
        simpa [List.length_eq_zero] using hsurvne
      have h1 : (subsumptionFilter (groupFirst df)).length ≤ 1 := Nat.not_lt.mp hlen
      simp only [List.length_map]
      omega
  refine ⟨?_, hone, hempty⟩
  rcases eq_or_ne df [] with rfl | hne
  · simp [hempty rfl]
  · simp [hone hne]

/-- Witness for claim C1 at a concrete non-empty group. -/
theorem compress_df_cardinality_witness :
    ([obs 1 "A1" "1" ""] ≠ ([] : List Row)) ∧
    (compress_df "A1" [obs 1 "A1" "1" ""]).length = 1 :=
  ⟨by decide, (compress_df_cardinality "A1" [obs 1 "A1" "1" ""]).2.1 (by decide)⟩

/-- Claim C3: in the subsumption filter, a surviving (one-per-signature) row
R is removed if and only if another surviving row S, distinct from R, agrees
with every non-empty attribute of R and has strictly more non-empty
attributes; consequently a row with zero non-empty attributes is removed
whenever some row has at least one, and two incomparable surviving rows
(neither a subset match of the other) both survive to the tie-break. -/
theorem subsumption_filter_characterization (df : List Row) (R : Row)
    (hR : R ∈ groupFirst df) :
    (R ∉ subsumptionFilter (groupFirst df) ↔
      ∃ S ∈ groupFirst df, S ≠ R ∧ subsetMatch R S = true ∧
        nonEmptyCount R < nonEmptyCount S) ∧
    ((nonEmptyCount R = 0 ∧ ∃ S ∈ groupFirst df, 0 < nonEmptyCount S) →
      R ∉ subsumptionFilter (groupFirst df)) ∧
    (∀ S T, groupFirst df = [S, T] → subsetMatch S T = false →
      subsetMatch T S = false → subsumptionFilter (groupFirst df) = [S, T]) := by
  have hnodup := groupFirst_nodup df
  have hmemiff := mem_subsumptionFilter (groupFirst df) hnodup R
  have hiff : R ∉ subsumptionFilter (groupFirst df) ↔
      ∃ S ∈ groupFirst df, S ≠ R ∧ subsetMatch R S = true ∧
        nonEmptyCount R < nonEmptyCount S := by
    constructor
    · intro hnot
      by_contra hnex
      exact hnot (hmemiff.mpr ⟨hR, hnex⟩)
    · rintro ⟨S, hS, hne, hsub, hlt⟩ hmem
      exact (hmemiff.mp hmem).2 ⟨S, hS, hne, hsub, hlt⟩
  refine ⟨hiff, ?_, ?_⟩
  · rintro ⟨hzero, S, hS, hpos⟩
    have hneR : S ≠ R := by
      rintro rfl
      omega
    have hcols : nonEmptyCols R = [] :=
      List.length_eq_zero.mp (by simpa [nonEmptyCount] using hzero)
    have hsub : subsetMatch R S = true := by simp [subsetMatch, hcols]
    exact hiff.mpr ⟨S, hS, hneR, hsub, by omega⟩
  · intro S T hdecomp hST hTS
    rw [subsumptionFilter_eq_filter _ hnodup, hdecomp]
    simp [List.filter_cons, List.any_cons, List.any_nil, hST, hTS]

/-- Witness for claim C3 at the spec's subsumption example: the group holds
R with only dbFlags set and S with dbFlags and year set. -/
theorem subsumption_filter_characterization_witness :
    (obs 1 "X" "A" "" ∈ groupFirst [obs 1 "X" "A" "", obs 2 "X" "A" "1999"]) ∧
    ((obs 1 "X" "A" "" ∉
        subsumptionFilter (groupFirst [obs 1 "X" "A" "", obs 2 "X" "A" "1999"]) ↔
      ∃ S ∈ groupFirst [obs 1 "X" "A" "", obs 2 "X" "A" "1999"],
        S ≠ obs 1 "X" "A" "" ∧ subsetMatch (obs 1 "X" "A" "") S = true ∧
          nonEmptyCount (obs 1 "X" "A" "") < nonEmptyCount S) ∧
    ((nonEmptyCount (obs 1 "X" "A" "") = 0 ∧
        ∃ S ∈ groupFirst [obs 1 "X" "A" "", obs 2 "X" "A" "1999"],
          0 < nonEmptyCount S) →
      obs 1 "X" "A" "" ∉
        subsumptionFilter (groupFirst [obs 1 "X" "A" "", obs 2 "X" "A" "1999"])) ∧
    (∀ S T, groupFirst [obs 1 "X" "A" "", obs 2 "X" "A" "1999"] = [S, T] →
      subsetMatch S T = false → subsetMatch T S = false →
      subsumptionFilter (groupFirst [obs 1 "X" "A" "", obs 2 "X" "A" "1999"]) = [S, T])) :=
  ⟨by decide, subsumption_filter_characterization
    [obs 1 "X" "A" "", obs 2 "X" "A" "1999"] (obs 1 "X" "A" "") (by decide)⟩

/-- Claim C4: when more than one row survives the subsumption filter,
`compress_df` outputs exactly one row — a survivor whose signature's raw
occurrence count over the input rows (before per-signature grouping) is
maximal, and every survivor scanned before it in the engine's iteration
order has a strictly smaller raw count (first-of-the-maxima tie-break). -/
theorem tie_break_selection (ic : String) (df : List Row)
    (h : 1 < (subsumptionFilter (groupFirst df)).length) :
    ∃ chosen ∈ subsumptionFilter (groupFirst df),
      compress_df ic df = [{ chosen with icao := ic }] ∧
      (∀ S ∈ subsumptionFilter (groupFirst df),
        rawSigCount df (signature S) ≤ rawSigCount df (signature chosen)) ∧
      ∃ pre post, subsumptionFilter (groupFirst df) = pre ++ chosen :: post ∧
        ∀ S ∈ pre, rawSigCount df (signature S) < rawSigCount df (signature chosen) := by
  have hsurvne : subsumptionFilter (groupFirst df) ≠ [] := by
    intro hnil
    rw [hnil] at h
    simp at h
  obtain ⟨pre, chosen, post, hdecomp, hsig, hmax, hpre⟩ :=
    firstMaxSig_spec (rawSigCount df) _ hsurvne
  refine ⟨chosen, ?_, ?_, ?_, pre, post, hdecomp, hpre⟩
  · rw [hdecomp]
    exact List.mem_append_right _ (List.mem_cons_self _ _)
  · rw [compress_df_eq, if_pos h, hsig,
      filter_sig_singleton _ (survivors_sig_nodup df) pre post chosen hdecomp]
    rfl
  · intro S hS
    rw [hmax]
    exact le_maxRawCount _ _ S hS

/-- Witness for claim C4 at a group with two incomparable surviving rows. -/
theorem tie_break_selection_witness :
    1 < (subsumptionFilter (groupFirst [obs 1 "X" "A" "", obs 2 "X" "" "1999"])).length ∧
    ∃ chosen ∈ subsumptionFilter (groupFirst [obs 1 "X" "A" "", obs 2 "X" "" "1999"]),
      compress_df "X" [obs 1 "X" "A" "", obs 2 "X" "" "1999"] =
        [{ chosen with icao := "X" }] ∧
      (∀ S ∈ subsumptionFilter (groupFirst [obs 1 "X" "A" "", obs 2 "X" "" "1999"]),
        rawSigCount [obs 1 "X" "A" "", obs 2 "X" "" "1999"] (signature S) ≤
          rawSigCount [obs 1 "X" "A" "", obs 2 "X" "" "1999"] (signature chosen)) ∧
      ∃ pre post,
        subsumptionFilter (groupFirst [obs 1 "X" "A" "", obs 2 "X" "" "1999"]) =
          pre ++ chosen :: post ∧
        ∀ S ∈ pre,
          rawSigCount [obs 1 "X" "A" "", obs 2 "X" "" "1999"] (signature S) <
            rawSigCount [obs 1 "X" "A" "", obs 2 "X" "" "1999"] (signature chosen) :=
  ⟨by decide, tie_break_selection "X" [obs 1 "X" "A" "", obs 2 "X" "" "1999"] (by decide)⟩

/-- Claim C5: for a per-aircraft input pre-sorted ascending by timestamp,
the row retained for each signature is the first input row with that
signature (ties broken by input order) and carries the minimum timestamp
among all input rows sharing that signature; and every input signature is
represented by a retained row. -/
theorem earliest_timestamp_per_signature (df : List Row)
    (hsorted : df.Pairwise (fun a b => a.time ≤ b.time)) (R : Row)
    (hR : R ∈ groupFirst df) :
    (∀ S ∈ df, signature S = signature R → R.time ≤ S.time) ∧
    (∃ pre post, df = pre ++ R :: post ∧ ∀ S ∈ pre, signature S ≠ signature R) ∧
    (∀ S ∈ df, ∃ T ∈ groupFirst df, signature T = signature S) := by
  have hfind := mem_groupFirst_find df R hR
  obtain ⟨_, pre, post, hdecomp, hpre⟩ := find?_eq_some_decomp _ df R hfind
  have hprene : ∀ S ∈ pre, signature S ≠ signature R := by
    intro S hS
    simpa using hpre S hS
  refine ⟨?_, ⟨pre, post, hdecomp, hprene⟩, fun S hS => groupFirst_covers df S hS⟩
  intro S hS hsig
  rw [hdecomp] at hS hsorted
  rcases List.mem_append.mp hS with hS | hS
  · exact absurd hsig (hprene S hS)
  · rcases List.mem_cons.mp hS with rfl | hS
    · exact le_refl _
    · rw [List.pairwise_append] at hsorted
      exact (List.pairwise_cons.mp hsorted.2.1).1 S hS

/-- Witness for claim C5 at a sorted two-row group sharing one signature. -/
theorem earliest_timestamp_per_signature_witness :
    ([obs 1 "X" "A" "", obs 2 "X" "A" ""].Pairwise (fun a b => a.time ≤ b.time)) ∧
    (obs 1 "X" "A" "" ∈ groupFirst [obs 1 "X" "A" "", obs 2 "X" "A" ""]) ∧
    ((∀ S ∈ [obs 1 "X" "A" "", obs 2 "X" "A" ""],
        signature S = signature (obs 1 "X" "A" "") →
        (obs 1 "X" "A" "").time ≤ S.time) ∧
    (∃ pre post, [obs 1 "X" "A" "", obs 2 "X" "A" ""] =
        pre ++ obs 1 "X" "A" "" :: post ∧
      ∀ S ∈ pre, signature S ≠ signature (obs 1 "X" "A" "")) ∧
    (∀ S ∈ [obs 1 "X" "A" "", obs 2 "X" "A" ""],
      ∃ T ∈ groupFirst [obs 1 "X" "A" "", obs 2 "X" "A" ""],
        signature T = signature S)) :=
  ⟨by decide, by decide,
    earliest_timestamp_per_signature [obs 1 "X" "A" "", obs 2 "X" "A" ""]
      (by decide) (obs 1 "X" "A" "") (by decide)⟩

/-- Claim C6 helper: the aircraft-`a` rows of a merge are the engine applied
to the concatenation of the two sides' aircraft-`a` rows. -/
theorem filter_concat_compressed (c1 c2 : List Row) (a : String) :
    (concat_compressed_dfs c1 c2).filter (fun row => row.icao == a) =
      sortByTime (compress_df a (sortByIcaoTime
        (c1.filter (fun row => row.icao == a) ++
          c2.filter (fun row => row.icao == a)))) := by
  rw [concat_compressed_dfs, filter_sortByTime, filter_perIcaoCompress,
    filter_sortByIcaoTime, List.filter_append]

/-- Claim C6 helper: re-applying the engine to its own single-record output
reproduces that output. -/
theorem compress_restable (a : String) (G : List Row) :
    sortByTime (compress_df a (sortByIcaoTime (compress_df a G))) =
      compress_df a G := by
  rcases compress_df_cases a G with h | ⟨r, h⟩
  · rw [h]
    rfl
  · have hicao : r.icao = a :=
      compress_df_icao a G r (by rw [h]; exact List.mem_cons_self _ _)
    rw [h]
    have h1 : sortByIcaoTime [r] = [r] := rfl
    rw [h1, compress_df_singleton, row_update_icao_eq r a hicao]
    rfl

/-- Claim C6: for every partition of one day's observations into X and Y and
every aircraft identifier appearing in only one of the two partitions,
merging the two per-day compressed results with `concat_compressed_dfs`
yields for that aircraft exactly the records that compressing the full day
would have produced. -/
theorem merge_noop_for_disjoint_aircraft (X Y : List Row) (a : String)
    (ha : (∀ row ∈ X, row.icao ≠ a) ∨ (∀ row ∈ Y, row.icao ≠ a)) :
    (concat_compressed_dfs (load_historical_for_day X)
        (load_historical_for_day Y)).filter (fun row => row.icao == a) =
      (load_historical_for_day (X ++ Y)).filter (fun row => row.icao == a) := by
  rw [filter_concat_compressed, filter_icao_load X a, filter_icao_load Y a,
    filter_icao_load (X ++ Y) a, List.filter_append]
  rcases ha with hside | hside
  · have hf : X.filter (fun row => row.icao == a) = [] :=
      List.filter_eq_nil.mpr (fun row hrow hbeq => hside row hrow (by simpa using hbeq))
    rw [hf]
    have hz : compress_df a
        (dropDuplicatesIcaoContent (sortByIcaoTime ([] : List Row))) = [] := rfl
    rw [hz]
    simp only [List.nil_append]
    rw [compress_restable]
  · have hf : Y.filter (fun row => row.icao == a) = [] :=
      List.filter_eq_nil.mpr (fun row hrow hbeq => hside row hrow (by simpa using hbeq))
    rw [hf]
    have hz : compress_df a
        (dropDuplicatesIcaoContent (sortByIcaoTime ([] : List Row))) = [] := rfl
    rw [hz]
    simp only [List.append_nil]
    rw [compress_restable]

/-- Witness for claim C6: a two-aircraft day split so that ABC appears only
in the first partition. -/
theorem merge_noop_for_disjoint_aircraft_witness :
    ((∀ row ∈ [obs 1 "ABC" "1" ""], row.icao ≠ "ZZZ") ∨
      (∀ row ∈ [obs 2 "ZZZ" "B" ""], row.icao ≠ "ZZZ")) ∧
    (concat_compressed_dfs (load_historical_for_day [obs 1 "ABC" "1" ""])
        (load_historical_for_day [obs 2 "ZZZ" "B" ""])).filter
        (fun row => row.icao == "ZZZ") =
      (load_historical_for_day ([obs 1 "ABC" "1" ""] ++ [obs 2 "ZZZ" "B" ""])).filter
        (fun row => row.icao == "ZZZ") :=
  ⟨by decide, merge_noop_for_disjoint_aircraft [obs 1 "ABC" "1" ""]
    [obs 2 "ZZZ" "B" ""] "ZZZ" (by decide)⟩

/-- Claim C10: every invocation of `historical_process_chunk.process_chunk`
and of `historical_combine_chunks.combine_chunks` raises an import error
before processing any input: both execute `from
compress_adsb_to_aircraft_data import ... deduplicate_by_signature` at the
top of the function body, and that module does not define
`deduplicate_by_signature` (the name exists only as separate copies in
`worker.py`, `reducer.py` and `adsb_to_aircraft_data_historical.py`). -/
theorem historical_chunk_scripts_import_error :
    (∀ days, historical_process_chunk_run days = .error "ImportError") ∧
    (∀ chunks, historical_combine_chunks_run chunks = .error "ImportError") := by
  refine ⟨fun days => ?_, fun chunks => ?_⟩ <;> rfl

/-- Claim C7 counterexample: with zero intermediate artifacts found for the
run, the reducer (`reducer.py main`) does not fail fatally: the concrete
zero-artifact run is not a fatal outcome (the code prints "No chunks found —
nothing to reduce." and returns normally), refuting the claimed fatal
failure. -/
theorem reducer_empty_not_fatal : isFatal (reducer_main []) = false := rfl

/-- Claim C7 (amended): when zero intermediate artifacts are found for a run
identifier, the reducer logs that there is nothing to reduce and returns
normally without publishing anything; it does not fail fatally. -/
theorem reducer_empty_normal_return :
    reducer_main [] = .ok .nothingToReduce := rfl

/-- Claim C2 counterexample: for the synthetic two-day range where `ABC123`
reports `{dbFlags:"1", year:""}` on day 1 and `{dbFlags:"1", year:"1999"}` on
day 2, the chunk worker's published artifact does not contain exactly one
record for `ABC123`: the two day records have distinct signatures and
`deduplicate_by_signature` keeps both (no subsumption is applied across
days). -/
theorem chunk_worker_two_day_counterexample :
    ¬ (((publishedRows (worker_main [.ok c2day1, .ok c2day2])).filter
        (fun row => row.icao == "ABC123")).length = 1) := by decide

/-- Claim C2 (amended): for the synthetic two-day range, the chunk worker's
published artifact contains exactly two records for `ABC123`: day 1's record
and day 2's record, in timestamp order — day 1's record is not subsumed,
because the worker deduplicates the accumulated days by exact signature only
and the two signatures differ. -/
theorem chunk_worker_two_day_artifact :
    worker_main [.ok c2day1, .ok c2day2] =
      .published [obs 1 "ABC123" "1" "", obs 2 "ABC123" "1" "1999"] := by decide

/-- Claim C8: a day-loader failure anywhere in the worker's range leaves the
outcome identical to the range without that day (the failure is logged and
the worker advances without aborting the chunk); and when every day of the
range contributes no rows (an empty loader result, or a failure), the worker
reports no data, publishes nothing, and returns normally. -/
theorem worker_partial_chunk_tolerance :
    (∀ pre post e,
      worker_main (pre ++ Except.error e :: post) = worker_main (pre ++ post)) ∧
    (∀ days, (∀ d ∈ days, safe_process d = []) → worker_main days = .noData) := by
  constructor
  · intro pre post e
    simp only [worker_main, workerAccum_skip_error]
  · intro days h
    simp [worker_main, workerAccum_all_empty days h]

/-- Witness for claim C8 at a concrete two-day chunk: one failed load and one
empty day produce the no-data outcome. -/
theorem worker_partial_chunk_tolerance_witness :
    (∀ d ∈ [Except.error "unavailable", Except.ok ([] : List Row)],
      safe_process d = []) ∧
    worker_main [Except.error "unavailable", Except.ok ([] : List Row)] = .noData :=
  ⟨by decide, worker_partial_chunk_tolerance.2 _ (by decide)⟩

/-- Claim C9: with a healthy sink, the extractor unit returns the output
path exactly when at least one row was written and signals no output
otherwise; an individual file's parse error is equivalent to that file
parsing to zero rows (skipped, the batch continues); and when rows exist to
persist, a sink error aborts the unit with that error. -/
theorem extractor_output_contract :
    (∀ parses path,
      process_chunk (fun _ => .ok ()) path parses =
        .ok (if 0 < totalParsedRows parses then some path else none)) ∧
    (∀ w path pre post e,
      process_chunk w path (pre ++ Except.error e :: post) =
        process_chunk w path (pre ++ Except.ok [] :: post)) ∧
    (∀ msg path parses, 0 < totalParsedRows parses →
      process_chunk (fun _ => .error msg) path parses = .error msg) := by
  refine ⟨fun parses path => ?_, fun w path pre post e => ?_, fun msg path parses h => ?_⟩
  · simp [process_chunk, writeBatches_all_ok, Bind.bind, Except.bind]
  · simp only [process_chunk]
    rw [writeBatches_congr_front w (Except.error e :: post) (Except.ok [] :: post)
      (fun b t => rfl)]
  · simp [process_chunk, writeBatches_sink_error msg parses [] 0 (by simpa using h),
      Bind.bind, Except.bind]

/-- Witness for claim C9 at a concrete unit: one successfully parsed row and
a failing sink abort the unit. -/
theorem extractor_output_contract_witness :
    0 < totalParsedRows [Except.ok [obs 1 "A" "1" ""]] ∧
    process_chunk (fun _ => .error "disk full") "out.parquet"
      [Except.ok [obs 1 "A" "1" ""]] = .error "disk full" :=
  ⟨by decide, extractor_output_contract.2.2 "disk full" "out.parquet" _ (by decide)⟩

end PlaneQuery
